import Mathlib

/-!
Verification of the history-tree storage engine (`sqlHistoryV2Manager`):
a shallow embedding of the append / read / fork / delete / enumerate
operations over the two substrate tables (`history_node`, `history_tree`),
together with proofs and refutations of the specified properties.

Machine integers (`int64` in the source) are modelled as `Int`; the values
involved (node ids, txn ids, page sizes) never approach the 64-bit bound in
any algorithm here, and no arithmetic in the source wraps.  Opaque blobs and
128-bit UUIDs are modelled as `String`.  A single tree is modelled: every
operation of the manager filters both tables by one `treeID`, so the rows of
other trees are untouched and irrelevant.
-/

namespace HistoryV2

/-- An entry of an ancestor chain: `shared.HistoryBranchRange`
(`branchID`, inclusive `beginNodeID`, exclusive `endNodeID`). -/
structure BranchRange where
  branchID : String
  beginNodeID : Int
  endNodeID : Int
deriving Repr, DecidableEq

/-- A branch descriptor: `shared.HistoryBranch` (treeID implicit, single tree). -/
structure HistoryBranch where
  branchID : String
  ancestors : List BranchRange
deriving Repr, DecidableEq

/-- A row of the `history_node` table (treeID implicit, single tree):
key `(branchID, nodeID, txnID)` plus the opaque blob and its encoding. -/
structure NodeRow where
  branchID : String
  nodeID : Int
  txnID : Int
  data : String
  dataEncoding : String
deriving Repr, DecidableEq

/-- A row of the `history_tree` table (treeID implicit, single tree):
key `branchID`, the in-progress flag, creation time, the (deserialized)
ancestor chain and the info string. -/
structure TreeRow where
  branchID : String
  inProgress : Bool
  createdTs : Int
  ancestors : List BranchRange
  info : String
deriving Repr, DecidableEq

/-- The durable state of one history tree: the two substrate tables. -/
structure TreeState where
  nodes : List NodeRow
  branches : List TreeRow
deriving Repr, DecidableEq

/-- Modelled from the spec: `p.GetBeginNodeID` (helper of the
`common/persistence` package, outside the given files) — the `endNodeID` of
the last entry of the ancestor chain when the chain is non-empty, else `1`. -/
def beginNodeOf (ancestors : List BranchRange) : Int :=
  match ancestors.getLast? with
  | none => 1
  | some r => r.endNodeID

/-- The helper `p.GetBeginNodeID` applied to a branch descriptor. -/
def GetBeginNodeID (b : HistoryBranch) : Int :=
  beginNodeOf b.ancestors

/-! ## ForkHistoryBranch: ancestor-chain computation (source lines 266-301) -/

/-- The case-A walk of `ForkHistoryBranch`: traverse the source ancestor
chain in order; an entry whose `endNodeID ≥ forkNodeID` is copied with its
`endNodeID` replaced by `forkNodeID` and the walk stops (`break`); any other
entry is copied unchanged. -/
def caseAWalk : List BranchRange → Int → List BranchRange
  | [], _ => []
  | br :: rest, forkNodeID =>
    if br.endNodeID ≥ forkNodeID then
      [⟨br.branchID, br.beginNodeID, forkNodeID⟩]
    else
      br :: caseAWalk rest forkNodeID

/-- The new ancestor chain computed by `ForkHistoryBranch`: case A when
`beginNodeID ≥ forkNodeID`, else the full source chain plus a fresh entry
referencing the source branch itself. -/
def forkAncestors (forkB : HistoryBranch) (forkNodeID : Int) : List BranchRange :=
  let beginNodeID := GetBeginNodeID forkB
  if beginNodeID ≥ forkNodeID then
    caseAWalk forkB.ancestors forkNodeID
  else
    forkB.ancestors ++ [⟨forkB.branchID, beginNodeID, forkNodeID⟩]

/-- The result of `ForkHistoryBranch`: the response's new branch descriptor
and the state after inserting the new `history_tree` row (inserted with
`InProgress = true`). -/
def forkHistoryBranch (st : TreeState) (forkB : HistoryBranch) (forkNodeID : Int)
    (newBranchID : String) (now : Int) (info : String) :
    HistoryBranch × TreeState :=
  let newAncestors := forkAncestors forkB forkNodeID
  (⟨newBranchID, newAncestors⟩,
   ⟨st.nodes, st.branches ++ [⟨newBranchID, true, now, newAncestors, info⟩]⟩)

/-! ## Error model -/

/-- The substrate's native error signal on an insert: MySQL duplicate-entry
(`ErrDupEntry`) or any other failure. -/
inductive StoreErr where
  | dupEntry
  | other
deriving Repr, DecidableEq

/-- The errors surfaced by the manager: `InvalidPersistenceRequestError`,
`ConditionFailedError`, `InternalServiceError`, and a substrate error
propagated out of a rolled-back transaction (the `txExecute` closure returns
it unchanged; `txExecute` itself is outside the given files and per the spec
rollbacks propagate directly). -/
inductive HErr where
  | invalidRequest (msg : String)
  | conditionFailed (msg : String)
  | internalService (msg : String)
  | txRolledBack (e : StoreErr)
deriving Repr, DecidableEq

/-- Whether an outcome is a `ConditionFailedError`. -/
def isConditionFailed : Option HErr → Bool
  | some (HErr.conditionFailed _) => true
  | _ => false

/-! ## Substrate operations on the two tables (modelled from the spec) -/

/-- Modelled from the spec: `InsertIntoHistoryNode` — primary key
`(tree_id, branch_id, node_id, txn_id)`; inserting an existing key fails
with the duplicate-entry signal, otherwise the row is added. -/
def insertIntoHistoryNode (st : TreeState) (row : NodeRow) : Except StoreErr TreeState :=
  if st.nodes.any (fun r =>
      r.branchID = row.branchID ∧ r.nodeID = row.nodeID ∧ r.txnID = row.txnID) then
    Except.error StoreErr.dupEntry
  else
    Except.ok ⟨st.nodes ++ [row], st.branches⟩

/-- Modelled from the spec: `InsertIntoHistoryTree` — primary key
`(tree_id, branch_id)`; inserting an existing key fails with the
duplicate-entry signal, otherwise the row is added. -/
def insertIntoHistoryTree (st : TreeState) (row : TreeRow) : Except StoreErr TreeState :=
  if st.branches.any (fun b => b.branchID = row.branchID) then
    Except.error StoreErr.dupEntry
  else
    Except.ok ⟨st.nodes, st.branches ++ [row]⟩

/-- Modelled from the spec: `DeleteFromHistoryNode` with a filter
`(treeID, branchID, minNodeID)` — removes every node of that branch with
`nodeID ≥ minNodeID` (no upper bound). -/
def deleteNodesFrom (nodes : List NodeRow) (bid : String) (minNodeID : Int) : List NodeRow :=
  nodes.filter (fun r => ¬(r.branchID = bid ∧ minNodeID ≤ r.nodeID))

/-- Modelled from the spec: `DeleteFromHistoryTree` with a filter
`(treeID, branchID)` — removes that branch row. -/
def deleteTreeRow (branches : List TreeRow) (bid : String) : List TreeRow :=
  branches.filter (fun b => ¬(b.branchID = bid))

/-! ## AppendHistoryNodes (source lines 77-150) -/

/-- The request of `AppendHistoryNodes` (single tree; the events blob is the
pair data / encoding). -/
structure AppendRequest where
  branchInfo : HistoryBranch
  nodeID : Int
  transactionID : Int
  data : String
  dataEncoding : String
  isNewBranch : Bool
  info : String
deriving Repr, DecidableEq

/-- Operation `AppendHistoryNodes`: the begin-node precondition, then either the
transactional new-branch path {node insert, tree insert} (both or neither;
a failure rolls back and the closure's error propagates), or a single node
insert whose duplicate-entry failure is translated to `ConditionFailed` and
any other failure to an internal error.  Returns the state after the call
and the error outcome (`none` on success). -/
def appendHistoryNodes (st : TreeState) (now : Int) (req : AppendRequest) :
    TreeState × Option HErr :=
  let beginNodeID := GetBeginNodeID req.branchInfo
  if req.nodeID < beginNodeID then
    (st, some (HErr.invalidRequest "cannot append to ancestors nodes"))
  else
    let nodeRow : NodeRow :=
      ⟨req.branchInfo.branchID, req.nodeID, req.transactionID, req.data, req.dataEncoding⟩
    if req.isNewBranch then
      let treeRow : TreeRow :=
        ⟨req.branchInfo.branchID, false, now, req.branchInfo.ancestors, req.info⟩
      match insertIntoHistoryNode st nodeRow with
      | Except.error e => (st, some (HErr.txRolledBack e))
      | Except.ok st1 =>
        match insertIntoHistoryTree st1 treeRow with
        | Except.error e => (st, some (HErr.txRolledBack e))
        | Except.ok st2 => (st2, none)
    else
      match insertIntoHistoryNode st nodeRow with
      | Except.error e =>
        if e = StoreErr.dupEntry then
          (st, some (HErr.conditionFailed "AppendHistoryNodes: row already exist"))
        else
          (st, some (HErr.internalService "AppendHistoryEvents"))
      | Except.ok st1 => (st1, none)

/-! ## ReadHistoryBranch (source lines 153-220) -/

/-- An emitted blob (`p.DataBlob`). -/
structure DataBlob where
  data : String
  encoding : String
deriving Repr, DecidableEq

/-- The request of `ReadHistoryBranch`; the page token is modelled as the
decoded `nodeID` it carries (`deserializePageToken` of a non-empty token). -/
structure ReadRequest where
  branchID : String
  minNodeID : Int
  maxNodeID : Int
  pageSize : Int
  nextPageToken : Option Int
deriving Repr, DecidableEq

/-- The filter handed to `SelectFromHistoryNode`. -/
structure HistoryNodeFilter where
  branchID : String
  minNodeID : Int
  maxNodeID : Int
  pageSize : Int
deriving Repr, DecidableEq

/-- The filter built by `ReadHistoryBranch`: a non-empty page token
decoding to `lastNodeID` overrides the request's `minNodeID` with
`lastNodeID + 1`. -/
def readFilter (req : ReadRequest) : HistoryNodeFilter :=
  match req.nextPageToken with
  | some lastNodeID => ⟨req.branchID, lastNodeID + 1, req.maxNodeID, req.pageSize⟩
  | none => ⟨req.branchID, req.minNodeID, req.maxNodeID, req.pageSize⟩

/-- The row loop of `ReadHistoryBranch` (source lines 184-208), carrying
`lastNodeID` and `lastTxnID`: a decreasing `nodeID` or a repeated `nodeID`
whose `txnID` is not strictly smaller fails as corrupted; a repeated
`nodeID` with strictly smaller `txnID` is skipped; otherwise the row is
accepted and its blob emitted.  Returns the emitted blobs together with the
final `lastNodeID`. -/
def processRows : List NodeRow → Int → Int → List DataBlob →
    Except String (List DataBlob × Int)
  | [], lastNodeID, _, acc => Except.ok (acc.reverse, lastNodeID)
  | row :: rest, lastNodeID, lastTxnID, acc =>
    if row.nodeID < lastNodeID then
      Except.error "corrupted data, nodeID cannot decrease"
    else if row.nodeID = lastNodeID then
      if row.txnID < lastTxnID then
        processRows rest lastNodeID lastTxnID acc
      else
        Except.error "corrupted data, same nodeID must have smaller txnID"
    else
      processRows rest row.nodeID row.txnID (⟨row.data, row.dataEncoding⟩ :: acc)

/-- The response of `ReadHistoryBranch`; the continuation token is modelled
as the `nodeID` it encodes (`serializePageToken`). -/
structure ReadResponse where
  history : List DataBlob
  nextPageToken : Option Int
deriving Repr, DecidableEq

/-- Operation `ReadHistoryBranch`, parameterized by the substrate's select (which
receives the filter built from the request): an empty row list yields an
empty response; otherwise the rows are processed and a continuation token
(the final `lastNodeID`) is attached exactly when the select returned at
least `pageSize` rows. -/
def readHistoryBranch (select : HistoryNodeFilter → List NodeRow) (req : ReadRequest) :
    Except String ReadResponse :=
  let rows := select (readFilter req)
  if rows.isEmpty then
    Except.ok ⟨[], none⟩
  else
    match processRows rows (-1) (-1) [] with
    | Except.error e => Except.error e
    | Except.ok (history, lastNodeID) =>
      Except.ok ⟨history,
        if req.pageSize ≤ (rows.length : Int) then some lastNodeID else none⟩

/-! ## GetHistoryTree (source lines 464-501) -/

/-- An element of the in-progress collection (`p.ForkingInProgressBranch`). -/
structure ForkingInProgressBranch where
  branchID : String
  forkTime : Int
  info : String
deriving Repr, DecidableEq

/-- The response of `GetHistoryTree`. -/
structure GetHistoryTreeResponse where
  branches : List HistoryBranch
  forkingInProgressBranches : List ForkingInProgressBranch
deriving Repr, DecidableEq

/-- The row loop of `GetHistoryTree` (source lines 476-495): every row is
appended to the branch collection; a row with the in-progress flag is
additionally appended to the in-progress collection. -/
def getHistoryTreeLoop : List TreeRow → List HistoryBranch × List ForkingInProgressBranch
  | [] => ([], [])
  | row :: rest =>
    let tail := getHistoryTreeLoop rest
    (⟨row.branchID, row.ancestors⟩ :: tail.1,
     if row.inProgress then ⟨row.branchID, row.createdTs, row.info⟩ :: tail.2 else tail.2)

/-- Operation `GetHistoryTree`: enumerate the tree's branch rows (empty table gives
the empty response, as the early return does). -/
def getHistoryTree (st : TreeState) : GetHistoryTreeResponse :=
  if st.branches.isEmpty then
    ⟨[], []⟩
  else
    ⟨(getHistoryTreeLoop st.branches).1, (getHistoryTreeLoop st.branches).2⟩

/-! ## DeleteHistoryBranch (source lines 331-407) -/

/-- An entry of the delete plan `brsToDelete`: only the `branchID` and
`beginNodeID` fields are consulted by the walk (the trailing entry for the
branch itself is built with no `endNodeID`). -/
structure DeleteRange where
  branchID : String
  beginNodeID : Int
deriving Repr, DecidableEq

/-- The `validBRsMaxEndNode` map (source lines 358-366): over every branch
row of the tree and every entry of its ancestor chain, keep per ancestor
`branchID` the maximum `endNodeID` seen. -/
def validBRsMaxEndNode (branches : List HistoryBranch) : String → Option Int :=
  branches.foldl
    (fun m b =>
      b.ancestors.foldl
        (fun m br k =>
          if k = br.branchID then
            match m k with
            | none => some br.endNodeID
            | some curr => if curr < br.endNodeID then some br.endNodeID else some curr
          else m k)
        m)
    (fun _ => none)

/-- The node-deletion walk of `DeleteHistoryBranch` (source lines 379-404),
given the plan already reversed (the source iterates `brsToDelete` from the
last index down): a range whose `branchID` is in the map deletes from the
mapped maximum referred end node and stops the walk; a range absent from
the map deletes from its own `beginNodeID` and the walk continues. -/
def deleteWalk (nodes : List NodeRow) (m : String → Option Int) :
    List DeleteRange → List NodeRow
  | [] => nodes
  | br :: rest =>
    match m br.branchID with
    | some maxReferredEndNodeID =>
      deleteNodesFrom nodes br.branchID maxReferredEndNodeID
    | none =>
      deleteWalk (deleteNodesFrom nodes br.branchID br.beginNodeID) m rest

/-- Operation `DeleteHistoryBranch`: enumerate the tree; refuse with `ConditionFailed`
when any branch is forking in progress; otherwise, in one transaction,
delete the branch row and run the node-deletion walk over the branch's
ancestor chain plus a trailing entry for the branch itself. -/
def deleteHistoryBranch (st : TreeState) (branch : HistoryBranch) :
    TreeState × Option HErr :=
  let beginNodeID := GetBeginNodeID branch
  let brsToDelete : List DeleteRange :=
    branch.ancestors.map (fun br => ⟨br.branchID, br.beginNodeID⟩) ++
      [⟨branch.branchID, beginNodeID⟩]
  let rsp := getHistoryTree st
  if rsp.forkingInProgressBranches.isEmpty then
    let m := validBRsMaxEndNode rsp.branches
    (⟨deleteWalk st.nodes m brsToDelete.reverse,
      deleteTreeRow st.branches branch.branchID⟩, none)
  else
    (st, some (HErr.conditionFailed "There are branches in progress of forking"))

/-! ## Logical history of a branch (spec-side notion, for delete safety) -/

/-- The set of `(branchID, nodeID)` pairs a branch reads for its logical
history: every ancestor segment of its chain plus its own nodes from its
begin node upward. -/
def logicalReads (b : HistoryBranch) (bid : String) (n : Int) : Prop :=
  (∃ br ∈ b.ancestors, br.branchID = bid ∧ br.beginNodeID ≤ n ∧ n < br.endNodeID) ∨
    (bid = b.branchID ∧ GetBeginNodeID b ≤ n)

instance (b : HistoryBranch) (bid : String) (n : Int) : Decidable (logicalReads b bid n) := by
  unfold logicalReads
  infer_instance

/-- Whether an outcome is an `InvalidPersistenceRequestError`. -/
def isInvalidRequest : Option HErr → Bool
  | some (HErr.invalidRequest _) => true
  | _ => false

/-- Whether the read loop failed (returned a corrupted-data error). -/
def readFailed : Except String (List DataBlob × Int) → Bool
  | Except.error _ => true
  | Except.ok _ => false

/-- The select ordering contract of the node store: `nodeID` ascending and,
within one `nodeID`, `txnID` descending (rows have pairwise-distinct primary
keys, so both comparisons are strict). -/
def rowLex (a b : NodeRow) : Prop :=
  a.nodeID < b.nodeID ∨ (a.nodeID = b.nodeID ∧ b.txnID < a.txnID)

instance (a b : NodeRow) : Decidable (rowLex a b) := by
  unfold rowLex
  infer_instance

/-- The expected read result, phrased from the spec: one representative row
per distinct `nodeID`, namely the first row carrying it (under the select
ordering that row has the largest `txnID` of its group). -/
def dedupHeads : List NodeRow → List NodeRow
  | [] => []
  | r :: rest => r :: dedupHeads (rest.filter (fun s => s.nodeID ≠ r.nodeID))
termination_by l => l.length
decreasing_by
  simp_wf
  exact Nat.lt_succ_of_le (List.length_filter_le _ rest)

/-- The corruption condition phrased from the spec: scanning the rows while
remembering the previously accepted row (`none` before any acceptance), the
read is corrupted exactly when some row's `nodeID` is strictly below the
previously accepted `nodeID`, or equals it with a `txnID` that is not
strictly smaller; a row that equals it with a strictly smaller `txnID` is
skipped, and any other row becomes the accepted one. -/
def specScanFails : Option (Int × Int) → List NodeRow → Bool
  | _, [] => false
  | none, r :: rest => specScanFails (some (r.nodeID, r.txnID)) rest
  | some (n, t), r :: rest =>
    if r.nodeID < n then true
    else if r.nodeID = n then
      if r.txnID < t then specScanFails (some (n, t)) rest else true
    else specScanFails (some (r.nodeID, r.txnID)) rest

/-! ## Concrete fixtures (the spec's S3/S4 boundary state) -/

/-- Branch `B1` of the spec's S3 state: no ancestors. -/
def branchB1 : HistoryBranch := ⟨"B1", []⟩

/-- Branch `B2` of the spec's S3 state: forked from `B1` at node 2. -/
def branchB2 : HistoryBranch := ⟨"B2", [⟨"B1", 1, 2⟩]⟩

/-- The spec's S3/S4 tree state: `B1` holds node 1 (`e1`, txn 100) and two
writes of node 2 (`e2`, txn 101, overridden by `e2b`, txn 200); `B2` holds
its own node 2 (`e2-alt`, txn 300); both branch rows are committed. -/
def treeStateS4 : TreeState :=
  ⟨[⟨"B1", 1, 100, "e1", "enc"⟩, ⟨"B1", 2, 101, "e2", "enc"⟩,
    ⟨"B1", 2, 200, "e2b", "enc"⟩, ⟨"B2", 2, 300, "e2alt", "enc"⟩],
   [⟨"B1", false, 0, [], "i1"⟩, ⟨"B2", false, 1, [⟨"B1", 1, 2⟩], "i2"⟩]⟩

/-! ## Lemmas about the case-A fork walk -/

theorem caseAWalk_eq_takeWhile (l : List BranchRange) (f : Int) :
    caseAWalk l f =
      l.takeWhile (fun br => br.endNodeID < f) ++
        (match l.dropWhile (fun br => br.endNodeID < f) with
         | [] => []
         | br :: _ => [⟨br.branchID, br.beginNodeID, f⟩]) := by
  induction l with
  | nil => rfl
  | cons br rest ih =>
    by_cases h : br.endNodeID ≥ f
    · have hb : (decide (br.endNodeID < f)) = false := by
        simp [decide_eq_false_iff_not]
        omega
      simp [caseAWalk, h, List.takeWhile_cons, List.dropWhile_cons, hb]
    · have hlt : br.endNodeID < f := by omega
      have hb : (decide (br.endNodeID < f)) = true := by simp [hlt]
      simp [caseAWalk, h, List.takeWhile_cons, List.dropWhile_cons, hb, ih]

theorem caseAWalk_ne_nil (l : List BranchRange) (f : Int) (h : l ≠ []) :
    caseAWalk l f ≠ [] := by
  cases l with
  | nil => exact absurd rfl h
  | cons br rest =>
    by_cases hc : br.endNodeID ≥ f <;> simp [caseAWalk, hc]

theorem caseAWalk_last (l : List BranchRange) (f : Int)
    (h : ∃ r ∈ l, f ≤ r.endNodeID) :
    beginNodeOf (caseAWalk l f) = f := by
  induction l with
  | nil => simp at h
  | cons br rest ih =>
    by_cases hc : br.endNodeID ≥ f
    · simp [caseAWalk, hc, beginNodeOf]
    · have hbr : br.endNodeID < f := by omega
      obtain ⟨r, hr, hrf⟩ := h
      rcases List.mem_cons.mp hr with hr | hr
      · subst hr
        omega
      · have hrest : rest ≠ [] := by
          intro he
          rw [he] at hr
          simp at hr
        have hne : caseAWalk rest f ≠ [] := caseAWalk_ne_nil rest f hrest
        have ihr := ih ⟨r, hr, hrf⟩
        have hstep : caseAWalk (br :: rest) f = br :: caseAWalk rest f := by
          simp [caseAWalk, hc]
        rw [hstep]
        cases hcw : caseAWalk rest f with
        | nil => exact absurd hcw hne
        | cons x xs =>
          rw [hcw] at ihr
          unfold beginNodeOf at ihr ⊢
          rwa [List.getLast?_cons_cons]

/-- C2.  Fork ancestor-chain computation: with `B = GetBeginNodeID forkB`,
when `B ≥ forkNodeID` the new chain copies every source entry whose
`endNodeID < forkNodeID` unchanged and then, if a first entry with
`endNodeID ≥ forkNodeID` exists, copies it with its `endNodeID` replaced by
`forkNodeID` and stops; when `B < forkNodeID` the new chain is the full
source chain followed by the entry
`{branchID = source branchID, beginNodeID = B, endNodeID = forkNodeID}`. -/
theorem fork_ancestor_chain (forkB : HistoryBranch) (forkNodeID : Int) :
    forkAncestors forkB forkNodeID =
      if GetBeginNodeID forkB ≥ forkNodeID then
        forkB.ancestors.takeWhile (fun br => br.endNodeID < forkNodeID) ++
          (match forkB.ancestors.dropWhile (fun br => br.endNodeID < forkNodeID) with
           | [] => []
           | br :: _ => [⟨br.branchID, br.beginNodeID, forkNodeID⟩])
      else
        forkB.ancestors ++ [⟨forkB.branchID, GetBeginNodeID forkB, forkNodeID⟩] := by
  by_cases h : GetBeginNodeID forkB ≥ forkNodeID
  · simp only [forkAncestors, h, if_true]
    exact caseAWalk_eq_takeWhile forkB.ancestors forkNodeID
  · simp only [forkAncestors, h, if_false]

/-- C10.  Implicit fork invariant: for `forkNodeID ≥ 1` and a source chain
strictly ordered by `endNodeID`, the chain produced by `ForkHistoryBranch`
has begin node exactly `forkNodeID` (its last entry's `endNodeID` equals
`forkNodeID`, or it is empty and `forkNodeID = 1`), so the new branch owns
exactly the node ids from `forkNodeID` upward. -/
theorem fork_begin_node (forkB : HistoryBranch) (forkNodeID : Int)
    (h1 : 1 ≤ forkNodeID)
    (_h2 : forkB.ancestors.Pairwise (fun a b => a.endNodeID < b.endNodeID)) :
    beginNodeOf (forkAncestors forkB forkNodeID) = forkNodeID := by
  by_cases h : GetBeginNodeID forkB ≥ forkNodeID
  · simp only [forkAncestors, h, if_true]
    cases hl : forkB.ancestors with
    | nil =>
      have hb : GetBeginNodeID forkB = 1 := by
        simp [GetBeginNodeID, beginNodeOf, hl]
      simp [caseAWalk, beginNodeOf]
      omega
    | cons br rest =>
      have hnil : forkB.ancestors ≠ [] := by rw [hl]; simp
      obtain ⟨last, hlast⟩ : ∃ r, forkB.ancestors.getLast? = some r := by
        cases hg : forkB.ancestors.getLast? with
        | none => exact absurd (List.getLast?_eq_none_iff.mp hg) hnil
        | some r => exact ⟨r, rfl⟩
      have hmem : last ∈ forkB.ancestors := by
        have := List.getLast?_eq_getLast _ hnil
        rw [this] at hlast
        have hx := List.getLast_mem hnil
        rwa [Option.some_inj.mp hlast] at hx
      have hend : forkNodeID ≤ last.endNodeID := by
        have : GetBeginNodeID forkB = last.endNodeID := by
          simp [GetBeginNodeID, beginNodeOf, hlast]
        omega
      rw [← hl]
      exact caseAWalk_last forkB.ancestors forkNodeID ⟨last, hmem, hend⟩
  · simp only [forkAncestors, h, if_false]
    simp [beginNodeOf]

/-- C10 witness: the fork of the S3 state's branch `B2` at node 2. -/
theorem fork_begin_node_witness :
    beginNodeOf (forkAncestors ⟨"B2", [⟨"B1", 1, 2⟩]⟩ 2) = 2 :=
  fork_begin_node ⟨"B2", [⟨"B1", 1, 2⟩]⟩ 2 (by decide) (by decide)

/-! ## GetHistoryTree: characterization, C5 and C7 -/

theorem getHistoryTreeLoop_spec (rows : List TreeRow) :
    getHistoryTreeLoop rows =
      (rows.map (fun row => (⟨row.branchID, row.ancestors⟩ : HistoryBranch)),
       (rows.filter (fun row => row.inProgress)).map
         (fun row => (⟨row.branchID, row.createdTs, row.info⟩ : ForkingInProgressBranch))) := by
  induction rows with
  | nil => rfl
  | cons row rest ih =>
    by_cases h : row.inProgress <;>
      simp [getHistoryTreeLoop, ih, h, List.filter_cons]

theorem getHistoryTree_spec (st : TreeState) :
    getHistoryTree st =
      ⟨st.branches.map (fun row => ⟨row.branchID, row.ancestors⟩),
       (st.branches.filter (fun row => row.inProgress)).map
         (fun row => ⟨row.branchID, row.createdTs, row.info⟩)⟩ := by
  unfold getHistoryTree
  by_cases h : st.branches.isEmpty
  · have : st.branches = [] := List.isEmpty_iff.mp h
    simp [this]
  · simp [h, getHistoryTreeLoop_spec]

/-- C5 counterexample: a tree whose only branch row has
`in-progress = true`; `GetHistoryTree` nevertheless places that branch in
the first (analyzed-as-committed) collection, so an in-progress branch does
appear there, contrary to the claim. -/
theorem getHistoryTree_in_progress_counterexample :
    (⟨[], [⟨"B3", true, 5, [], "f"⟩]⟩ : TreeState).branches.all
        (fun row => row.inProgress) = true ∧
      (⟨"B3", []⟩ : HistoryBranch) ∈
        (getHistoryTree ⟨[], [⟨"B3", true, 5, [], "f"⟩]⟩).branches := by
  constructor
  · decide
  · simp [getHistoryTree, getHistoryTreeLoop]

/-- C5 (amended).  `GetHistoryTree` returns two collections: the first
contains every branch row of the tree — committed and in-progress alike —
with its deserialized ancestor chain; the second contains exactly the rows
with `in-progress = true` (with branchID, fork time and info). -/
theorem getHistoryTree_split (st : TreeState) :
    (getHistoryTree st).branches =
        st.branches.map (fun row => ⟨row.branchID, row.ancestors⟩) ∧
      (getHistoryTree st).forkingInProgressBranches =
        (st.branches.filter (fun row => row.inProgress)).map
          (fun row => ⟨row.branchID, row.createdTs, row.info⟩) := by
  rw [getHistoryTree_spec]
  exact ⟨rfl, rfl⟩

/-- C7.  In-progress blocks delete: whenever some branch row of the tree has
`in-progress = true`, `DeleteHistoryBranch` returns `ConditionFailed` and
changes nothing — neither the branch rows nor the nodes. -/
theorem delete_blocked_by_in_progress (st : TreeState) (branch : HistoryBranch)
    (row : TreeRow) (hmem : row ∈ st.branches) (hprog : row.inProgress = true) :
    deleteHistoryBranch st branch =
      (st, some (HErr.conditionFailed "There are branches in progress of forking")) := by
  have hne : (getHistoryTree st).forkingInProgressBranches ≠ [] := by
    rw [getHistoryTree_spec]
    simp only [ne_eq, List.map_eq_nil_iff, List.filter_eq_nil_iff]
    intro hall
    exact absurd hprog (by simpa using hall row hmem)
  unfold deleteHistoryBranch
  have : (getHistoryTree st).forkingInProgressBranches.isEmpty = false := by
    cases hc : (getHistoryTree st).forkingInProgressBranches with
    | nil => exact absurd hc hne
    | cons x xs => rfl
  simp [this]

/-- C7 witness: the delete of branch `B1` is refused while `B3` is forking
in progress. -/
theorem delete_blocked_by_in_progress_witness :
    deleteHistoryBranch ⟨[], [⟨"B1", false, 0, [], ""⟩, ⟨"B3", true, 5, [], "f"⟩]⟩ ⟨"B1", []⟩ =
      (⟨[], [⟨"B1", false, 0, [], ""⟩, ⟨"B3", true, 5, [], "f"⟩]⟩,
       some (HErr.conditionFailed "There are branches in progress of forking")) :=
  delete_blocked_by_in_progress _ ⟨"B1", []⟩ ⟨"B3", true, 5, [], "f"⟩ (by decide) (by decide)

/-! ## AppendHistoryNodes: C6 and C4 -/

/-- C6.  Append precondition: a request with
`nodeID < GetBeginNodeID branchInfo` returns `InvalidRequest` with the state
untouched (no insert is performed); a request with
`nodeID ≥ GetBeginNodeID branchInfo` proceeds past the precondition and
never produces `InvalidRequest`. -/
theorem append_precondition (st : TreeState) (now : Int) (req : AppendRequest) :
    (req.nodeID < GetBeginNodeID req.branchInfo →
      appendHistoryNodes st now req =
        (st, some (HErr.invalidRequest "cannot append to ancestors nodes"))) ∧
    (GetBeginNodeID req.branchInfo ≤ req.nodeID →
      isInvalidRequest (appendHistoryNodes st now req).2 = false) := by
  constructor
  · intro h
    simp [appendHistoryNodes, h]
  · intro h
    have hlt : ¬(req.nodeID < GetBeginNodeID req.branchInfo) := by omega
    unfold appendHistoryNodes
    simp only [hlt, if_false]
    cases hb : req.isNewBranch with
    | true =>
      simp only [hb, if_true]
      split
      · rfl
      · split <;> rfl
    | false =>
      simp only [hb, Bool.false_eq_true, if_false]
      split
      · split <;> rfl
      · rfl

/-- C6 witness: on the S3 state, appending at node 1 of `B2`
(`BeginNodeID = 2`) is refused as `InvalidRequest`, and appending at node 3
of `B2` is not. -/
theorem append_precondition_witness :
    appendHistoryNodes treeStateS4 9 ⟨branchB2, 1, 500, "x", "enc", false, ""⟩ =
        (treeStateS4, some (HErr.invalidRequest "cannot append to ancestors nodes")) ∧
      isInvalidRequest
        (appendHistoryNodes treeStateS4 9 ⟨branchB2, 3, 500, "x", "enc", false, ""⟩).2 = false :=
  ⟨(append_precondition treeStateS4 9 ⟨branchB2, 1, 500, "x", "enc", false, ""⟩).1 (by decide),
   (append_precondition treeStateS4 9 ⟨branchB2, 3, 500, "x", "enc", false, ""⟩).2 (by decide)⟩

/-- C4 counterexample: an `AppendHistoryNodes` request with
`isNewBranch = true` whose node insert hits the duplicate-primary-key
signal (node `(B1, 1, 100)` already exists) does not return
`ConditionFailed` — the rolled-back transaction propagates the substrate
error untranslated. -/
theorem append_dup_new_branch_counterexample :
    (appendHistoryNodes ⟨[⟨"B1", 1, 100, "e1", "enc"⟩], []⟩ 0
        ⟨branchB1, 1, 100, "x", "enc", true, ""⟩).2 =
        some (HErr.txRolledBack StoreErr.dupEntry) ∧
      isConditionFailed
        (appendHistoryNodes ⟨[⟨"B1", 1, 100, "e1", "enc"⟩], []⟩ 0
          ⟨branchB1, 1, 100, "x", "enc", true, ""⟩).2 = false := by
  constructor <;> decide

/-- C4 (amended).  Only for requests with `isNewBranch = false` is the
duplicate-primary-key signal of the node insert translated to
`ConditionFailed`: such a request whose `(branchID, nodeID, txnID)` key is
already present (and which passes the begin-node precondition) returns
`ConditionFailed` and leaves the state unchanged.  With `isNewBranch = true`
the duplicate-key error propagates out of the rolled-back transaction
untranslated. -/
theorem append_dup_translated (st : TreeState) (now : Int) (req : AppendRequest)
    (hflag : req.isNewBranch = false)
    (hpre : GetBeginNodeID req.branchInfo ≤ req.nodeID)
    (hdup : ∃ r ∈ st.nodes, r.branchID = req.branchInfo.branchID ∧
      r.nodeID = req.nodeID ∧ r.txnID = req.transactionID) :
    appendHistoryNodes st now req =
      (st, some (HErr.conditionFailed "AppendHistoryNodes: row already exist")) := by
  have hlt : ¬(req.nodeID < GetBeginNodeID req.branchInfo) := by omega
  have hany : st.nodes.any (fun r =>
      r.branchID = req.branchInfo.branchID ∧ r.nodeID = req.nodeID ∧
        r.txnID = req.transactionID) = true := by
    obtain ⟨r, hr, h1, h2, h3⟩ := hdup
    exact List.any_eq_true.mpr ⟨r, hr, by simp [h1, h2, h3]⟩
  unfold appendHistoryNodes insertIntoHistoryNode
  simp only [hlt, hflag, Bool.false_eq_true, if_false, List.any_eq_true,
    decide_eq_true_eq]
  rw [if_pos hdup]
  rfl

/-- C4 amended-theorem witness: the duplicate append of S2's node 2 with the
old transaction id, `isNewBranch = false`, fails with `ConditionFailed`. -/
theorem append_dup_translated_witness :
    appendHistoryNodes treeStateS4 9 ⟨branchB1, 2, 101, "again", "enc", false, ""⟩ =
      (treeStateS4, some (HErr.conditionFailed "AppendHistoryNodes: row already exist")) :=
  append_dup_translated treeStateS4 9 ⟨branchB1, 2, 101, "again", "enc", false, ""⟩
    (by decide) (by decide)
    ⟨⟨"B1", 2, 101, "e2", "enc"⟩, by decide, by decide, by decide, by decide⟩

/-! ## DeleteHistoryBranch: C1 -/

/-- C1 (refuted; the claim is the spec's intent and the code violates it).
On the spec's own S4 state, `DeleteHistoryBranch(B2)` succeeds but deletes
node 2 of the remaining branch `B1` — a node `B1` owns
(`2 ≥ GetBeginNodeID B1 = 1`) and reads in its logical history — because
`validBRsMaxEndNode` maps `B1` to the highest `endNodeID` referred by any
ancestor chain (here 2, from the chain of the deleted `B2` itself) and the
walk then deletes all nodes of `B1` from that point up, ignoring that `B1`
is itself a live branch owning those nodes.  Afterwards `B1` reads `[e1]`
instead of `[e1, e2b]`. -/
theorem delete_violates_sibling_reads_s4 :
    deleteHistoryBranch treeStateS4 branchB2 =
        (⟨[⟨"B1", 1, 100, "e1", "enc"⟩], [⟨"B1", false, 0, [], "i1"⟩]⟩, none) ∧
      logicalReads branchB1 "B1" 2 ∧
      (⟨"B1", 2, 200, "e2b", "enc"⟩ : NodeRow) ∈ treeStateS4.nodes ∧
      ((deleteHistoryBranch treeStateS4 branchB2).1.nodes.any
        (fun r => r.branchID = "B1" ∧ r.nodeID = 2)) = false := by
  refine ⟨by decide, ?_, by decide, by decide⟩
  unfold logicalReads
  right
  exact ⟨rfl, by decide⟩

/-! ## ReadHistoryBranch: dedup lemmas and C3 -/

theorem dedupHeads_subset (l : List NodeRow) : dedupHeads l ⊆ l := by
  induction l using dedupHeads.induct with
  | case1 => simp [dedupHeads]
  | case2 r rest ih =>
    rw [dedupHeads]
    intro x hx
    rcases List.mem_cons.mp hx with rfl | hx
    · exact List.mem_cons_self _ _
    · exact List.mem_cons_of_mem _ (List.mem_of_mem_filter (ih hx))

theorem dedupHeads_nodup_nodeID (l : List NodeRow) :
    ((dedupHeads l).map (fun r => r.nodeID)).Nodup := by
  induction l using dedupHeads.induct with
  | case1 => simp [dedupHeads]
  | case2 r rest ih =>
    rw [dedupHeads]
    simp only [List.map_cons, List.nodup_cons]
    refine ⟨?_, ih⟩
    intro hmem
    obtain ⟨h, hh, hid⟩ := List.mem_map.mp hmem
    have hfil := dedupHeads_subset _ hh
    have := List.of_mem_filter hfil
    simp only [decide_eq_true_eq] at this
    exact this hid

theorem dedupHeads_covers (l : List NodeRow) (hsort : l.Pairwise rowLex) :
    ∀ r ∈ l, ∃ h ∈ dedupHeads l, h.nodeID = r.nodeID ∧ r.txnID ≤ h.txnID := by
  induction l using dedupHeads.induct with
  | case1 => simp
  | case2 r0 rest ih =>
    intro r hr
    rw [dedupHeads]
    rcases List.mem_cons.mp hr with rfl | hr
    · exact ⟨r, List.mem_cons_self _ _, rfl, le_refl _⟩
    · by_cases hid : r.nodeID = r0.nodeID
      · refine ⟨r0, List.mem_cons_self _ _, hid.symm, ?_⟩
        have hrel := (List.pairwise_cons.mp hsort).1 r hr
        rcases hrel with hrel | ⟨_, hrel⟩
        · omega
        · omega
      · have hfil : r ∈ rest.filter (fun s => s.nodeID ≠ r0.nodeID) :=
          List.mem_filter.mpr ⟨hr, by simpa using hid⟩
        have hpair : (rest.filter (fun s => s.nodeID ≠ r0.nodeID)).Pairwise rowLex :=
          List.Pairwise.filter _ (List.pairwise_cons.mp hsort).2
        obtain ⟨h, hh, h1, h2⟩ := ih hpair r hfil
        exact ⟨h, List.mem_cons_of_mem _ hh, h1, h2⟩

theorem filter_lt_ne_eq (r : NodeRow) (rest : List NodeRow) (lastN : Int)
    (hlt : lastN < r.nodeID) (hp : ∀ s ∈ rest, rowLex r s) :
    (rest.filter (fun s => lastN < s.nodeID)).filter (fun s => s.nodeID ≠ r.nodeID) =
      rest.filter (fun s => r.nodeID < s.nodeID) := by
  rw [List.filter_filter]
  apply List.filter_congr
  intro s hs
  have hrel := hp s hs
  unfold rowLex at hrel
  by_cases hc : r.nodeID < s.nodeID
  · have h1 : lastN < s.nodeID := by omega
    have h2 : s.nodeID ≠ r.nodeID := by omega
    simp [h1, h2, hc]
  · have h2 : s.nodeID = r.nodeID := by omega
    simp [h2, hc]

/-- The blob carried by a row. -/
def rowBlob (r : NodeRow) : DataBlob := ⟨r.data, r.dataEncoding⟩

theorem processRows_sorted (rows : List NodeRow) (hsort : rows.Pairwise rowLex) :
    ∀ lastN lastT acc,
      (∀ s ∈ rows, lastN < s.nodeID ∨ (s.nodeID = lastN ∧ s.txnID < lastT)) →
      ∃ n, processRows rows lastN lastT acc =
        Except.ok (acc.reverse ++
          (dedupHeads (rows.filter (fun s => lastN < s.nodeID))).map rowBlob, n) := by
  induction rows with
  | nil =>
    intro lastN lastT acc _
    exact ⟨lastN, by simp [processRows, dedupHeads]⟩
  | cons r rest ih =>
    intro lastN lastT acc hinv
    have hpair := List.pairwise_cons.mp hsort
    rcases hinv r (List.mem_cons_self _ _) with hacc | ⟨heq, hskip⟩
    · -- the row is accepted
      have hnlt : ¬(r.nodeID < lastN) := by omega
      have hne : ¬(r.nodeID = lastN) := by omega
      have hinv2 : ∀ s ∈ rest, r.nodeID < s.nodeID ∨
          (s.nodeID = r.nodeID ∧ s.txnID < r.txnID) := by
        intro s hs
        have hrel := hpair.1 s hs
        unfold rowLex at hrel
        rcases hrel with hrel | ⟨h1, h2⟩
        · left; omega
        · right; exact ⟨h1.symm, h2⟩
      obtain ⟨n, hn⟩ := ih hpair.2 r.nodeID r.txnID (rowBlob r :: acc) hinv2
      refine ⟨n, ?_⟩
      have hstep : processRows (r :: rest) lastN lastT acc =
          processRows rest r.nodeID r.txnID (rowBlob r :: acc) := by
        rw [processRows, if_neg hnlt, if_neg hne]
        exact rfl
      rw [hstep, hn]
      have hfil : (r :: rest).filter (fun s => lastN < s.nodeID) =
          r :: rest.filter (fun s => lastN < s.nodeID) :=
        List.filter_cons_of_pos (by simpa using hacc)
      have hrl : ∀ s ∈ rest, rowLex r s := hpair.1
      rw [hfil, dedupHeads, filter_lt_ne_eq r rest lastN hacc hrl]
      simp
    · -- the row is skipped
      have hnlt : ¬(r.nodeID < lastN) := by omega
      have hinv2 : ∀ s ∈ rest, lastN < s.nodeID ∨
          (s.nodeID = lastN ∧ s.txnID < lastT) := by
        intro s hs
        have hrel := hpair.1 s hs
        unfold rowLex at hrel
        rcases hrel with hrel | ⟨h1, h2⟩
        · left; omega
        · right; constructor <;> omega
      obtain ⟨n, hn⟩ := ih hpair.2 lastN lastT acc hinv2
      refine ⟨n, ?_⟩
      have hstep : processRows (r :: rest) lastN lastT acc =
          processRows rest lastN lastT acc := by
        rw [processRows, if_neg hnlt, if_pos heq, if_pos hskip]
      rw [hstep, hn]
      have hfil : (r :: rest).filter (fun s => lastN < s.nodeID) =
          rest.filter (fun s => lastN < s.nodeID) := by
        rw [List.filter_cons_of_neg (by simp; omega)]
      rw [hfil]

/-- C3.  Txn dedup at read: on a row list sorted `(nodeID ASC, txnID DESC)`
with node ids from the data model (`≥ 1`), the read loop succeeds and emits
exactly one blob per distinct `nodeID` — the blob of that `nodeID`'s first
row, which carries the group's largest `txnID`; rows with the same `nodeID`
and a smaller `txnID` contribute nothing to the result. -/
theorem read_txn_dedup (rows : List NodeRow) (hsort : rows.Pairwise rowLex)
    (hpos : ∀ r ∈ rows, 1 ≤ r.nodeID) :
    ∃ n, processRows rows (-1) (-1) [] =
        Except.ok ((dedupHeads rows).map rowBlob, n) ∧
      ((dedupHeads rows).map (fun r => r.nodeID)).Nodup ∧
      (∀ r ∈ rows, ∃ h ∈ dedupHeads rows, h.nodeID = r.nodeID ∧ r.txnID ≤ h.txnID) ∧
      dedupHeads rows ⊆ rows := by
  have hinv : ∀ s ∈ rows, (-1 : Int) < s.nodeID ∨
      (s.nodeID = -1 ∧ s.txnID < -1) := by
    intro s hs
    left
    have := hpos s hs
    omega
  obtain ⟨n, hn⟩ := processRows_sorted rows hsort (-1) (-1) [] hinv
  have hfe : rows.filter (fun s => (-1 : Int) < s.nodeID) = rows := by
    apply List.filter_eq_self.mpr
    intro a ha
    have := hpos a ha
    simp
    omega
  rw [hfe] at hn
  refine ⟨n, by simpa using hn, dedupHeads_nodup_nodeID rows,
    dedupHeads_covers rows hsort, dedupHeads_subset rows⟩

/-- C3 witness: the S2 read — rows for nodes 1 and 2, node 2 written twice
(txn 200 then 101) — yields blobs `e1`, `e2b` only. -/
theorem read_txn_dedup_witness :
    ∃ n, processRows [⟨"B1", 1, 100, "e1", "enc"⟩, ⟨"B1", 2, 200, "e2b", "enc"⟩,
          ⟨"B1", 2, 101, "e2", "enc"⟩] (-1) (-1) [] =
        Except.ok ((dedupHeads [⟨"B1", 1, 100, "e1", "enc"⟩, ⟨"B1", 2, 200, "e2b", "enc"⟩,
          ⟨"B1", 2, 101, "e2", "enc"⟩]).map rowBlob, n) ∧
      ((dedupHeads [⟨"B1", 1, 100, "e1", "enc"⟩, ⟨"B1", 2, 200, "e2b", "enc"⟩,
          ⟨"B1", 2, 101, "e2", "enc"⟩]).map (fun r => r.nodeID)).Nodup ∧
      (∀ r ∈ [⟨"B1", 1, 100, "e1", "enc"⟩, ⟨"B1", 2, 200, "e2b", "enc"⟩,
          (⟨"B1", 2, 101, "e2", "enc"⟩ : NodeRow)],
        ∃ h ∈ dedupHeads [⟨"B1", 1, 100, "e1", "enc"⟩, ⟨"B1", 2, 200, "e2b", "enc"⟩,
          ⟨"B1", 2, 101, "e2", "enc"⟩], h.nodeID = r.nodeID ∧ r.txnID ≤ h.txnID) ∧
      dedupHeads [⟨"B1", 1, 100, "e1", "enc"⟩, ⟨"B1", 2, 200, "e2b", "enc"⟩,
          ⟨"B1", 2, 101, "e2", "enc"⟩] ⊆
        [⟨"B1", 1, 100, "e1", "enc"⟩, ⟨"B1", 2, 200, "e2b", "enc"⟩,
          ⟨"B1", 2, 101, "e2", "enc"⟩] :=
  read_txn_dedup _ (by decide) (by decide)

/-! ## ReadHistoryBranch: corruption detection, C9 -/

theorem processRows_failed_eq (rows : List NodeRow) :
    ∀ lastN lastT acc, readFailed (processRows rows lastN lastT acc) =
      specScanFails (some (lastN, lastT)) rows := by
  induction rows with
  | nil =>
    intro lastN lastT acc
    rfl
  | cons r rest ih =>
    intro lastN lastT acc
    by_cases h1 : r.nodeID < lastN
    · simp [processRows, specScanFails, h1, readFailed]
    · by_cases h2 : r.nodeID = lastN
      · by_cases h3 : r.txnID < lastT
        · simp [processRows, specScanFails, h1, h2, h3, ih]
        · simp [processRows, specScanFails, h1, h2, h3, readFailed]
      · simp [processRows, specScanFails, h1, h2, ih]

/-- C9.  Corrupted-ordering detection: over node-store rows (node ids `≥ 1`
per the data model), the read loop fails with an internal error exactly when
the spec's scan condition holds — some row's `nodeID` drops below the
previously accepted one, or repeats it with a `txnID` not strictly smaller
than the previously accepted `txnID`; otherwise the whole list is consumed
without error. -/
theorem read_corruption_iff (rows : List NodeRow)
    (hpos : ∀ r ∈ rows, 1 ≤ r.nodeID) :
    readFailed (processRows rows (-1) (-1) []) = true ↔
      specScanFails none rows = true := by
  cases rows with
  | nil => simp [processRows, specScanFails, readFailed]
  | cons r rest =>
    have hr1 : 1 ≤ r.nodeID := hpos r (List.mem_cons_self _ _)
    have h1 : ¬(r.nodeID < -1) := by omega
    have h2 : ¬(r.nodeID = -1) := by omega
    have hstep : processRows (r :: rest) (-1) (-1) [] =
        processRows rest r.nodeID r.txnID [rowBlob r] := by
      rw [processRows, if_neg h1, if_neg h2]
      exact rfl
    rw [hstep, processRows_failed_eq]
    have hspec : specScanFails none (r :: rest) =
        specScanFails (some (r.nodeID, r.txnID)) rest := rfl
    rw [hspec]

/-- C9 witness: a decreasing pair of node ids is detected as corrupted. -/
theorem read_corruption_iff_witness :
    readFailed (processRows [⟨"B1", 2, 100, "a", "enc"⟩, ⟨"B1", 1, 50, "b", "enc"⟩]
        (-1) (-1) []) = true ↔
      specScanFails none [⟨"B1", 2, 100, "a", "enc"⟩, ⟨"B1", 1, 50, "b", "enc"⟩] = true :=
  read_corruption_iff _ (by decide)

/-! ## ReadHistoryBranch: pagination, C8 -/

/-- C8.  Pagination token semantics: a request whose page token decodes to
`lastNodeID` selects with an effective `minNodeID` of `lastNodeID + 1`
(overriding the request's `minNodeID`); and a successful response carries a
continuation token — the last accepted `nodeID` of the scan — exactly when
the underlying select returned at least `pageSize` rows. -/
theorem read_pagination (select : HistoryNodeFilter → List NodeRow)
    (req : ReadRequest) (resp : ReadResponse) (hp : 1 ≤ req.pageSize)
    (hok : readHistoryBranch select req = Except.ok resp) :
    (∀ tok, req.nextPageToken = some tok → (readFilter req).minNodeID = tok + 1) ∧
    (resp.nextPageToken ≠ none ↔
      req.pageSize ≤ ((select (readFilter req)).length : Int)) ∧
    (∀ bs n, processRows (select (readFilter req)) (-1) (-1) [] = Except.ok (bs, n) →
      req.pageSize ≤ ((select (readFilter req)).length : Int) →
      resp.nextPageToken = some n) := by
  refine ⟨?_, ?_⟩
  · intro tok htok
    simp [readFilter, htok]
  · simp only [readHistoryBranch] at hok
    by_cases hemp : (select (readFilter req)).isEmpty
    · have hnil : select (readFilter req) = [] := List.isEmpty_iff.mp hemp
      rw [if_pos hemp] at hok
      have hresp : resp = ⟨[], none⟩ := by
        cases hok
        rfl
      constructor
      · rw [hresp, hnil]
        simp
        omega
      · intro bs n _ hlen
        rw [hnil] at hlen
        simp at hlen
        omega
    · rw [if_neg hemp] at hok
      cases hpr : processRows (select (readFilter req)) (-1) (-1) [] with
      | error e =>
        rw [hpr] at hok
        cases hok
      | ok pair =>
        rw [hpr] at hok
        obtain ⟨history, lastN⟩ := pair
        have hresp : resp = ⟨history,
            if req.pageSize ≤ ((select (readFilter req)).length : Int)
            then some lastN else none⟩ := by
          cases hok
          rfl
        constructor
        · rw [hresp]
          by_cases hc : req.pageSize ≤ ((select (readFilter req)).length : Int)
          · simp [hc]
          · simp [hc]
        · intro bs n hpn hlen
          have hinj := Except.ok.inj hpn
          have hn2 : lastN = n := congrArg Prod.snd hinj
          rw [hresp, if_pos hlen]
          exact congrArg some hn2

/-- C8 witness: with a one-row select, page size 1 and a token decoding to
node 5, the filter's effective `minNodeID` is 6 and the response carries the
token of the accepted node 6. -/
theorem read_pagination_witness :
    (∀ tok, (⟨"B1", 1, 10, 1, some 5⟩ : ReadRequest).nextPageToken = some tok →
      (readFilter ⟨"B1", 1, 10, 1, some 5⟩).minNodeID = tok + 1) ∧
    ((⟨[⟨"e6", "enc"⟩], some 6⟩ : ReadResponse).nextPageToken ≠ none ↔
      (⟨"B1", 1, 10, 1, some 5⟩ : ReadRequest).pageSize ≤
        (((fun _ => [⟨"B1", 6, 100, "e6", "enc"⟩]) (readFilter ⟨"B1", 1, 10, 1, some 5⟩)
          : List NodeRow).length : Int)) ∧
    (∀ bs n, processRows ((fun _ => [⟨"B1", 6, 100, "e6", "enc"⟩])
          (readFilter ⟨"B1", 1, 10, 1, some 5⟩)) (-1) (-1) [] = Except.ok (bs, n) →
      (⟨"B1", 1, 10, 1, some 5⟩ : ReadRequest).pageSize ≤
        (((fun _ => [⟨"B1", 6, 100, "e6", "enc"⟩]) (readFilter ⟨"B1", 1, 10, 1, some 5⟩)
          : List NodeRow).length : Int) →
      (⟨[⟨"e6", "enc"⟩], some 6⟩ : ReadResponse).nextPageToken = some n) :=
  read_pagination (fun _ => [⟨"B1", 6, 100, "e6", "enc"⟩]) ⟨"B1", 1, 10, 1, some 5⟩
    ⟨[⟨"e6", "enc"⟩], some 6⟩ (by decide) rfl

end HistoryV2
